import Mathlib

/-!
Verification development for the Slack fetcher module
(`src/growthkit/connectors/slack/slack_fetcher.py`).

Shallow embedding conventions:
* Python strings that the code manipulates are `List Char`; inert strings stay `String`.
* A Slack message timestamp string is modelled by its numeric value (`ℚ`).
  Slack emits timestamps in a canonical decimal form, so the string and its
  float value determine each other; a missing or empty (falsy) `ts` field is
  `none`, a present truthy string is `some value`.  `float(...)` conversions in
  sort keys and filters become `Option.getD _ 0`, mirroring `m.get("ts", 0)`.
* Python dicts are association lists with first-insertion key order and
  last-write-wins values (`pyDictSet`).
* Network traffic is passed in explicitly: API page responses, thread-reply
  responses and the intercepted-call buffer are inputs of the functions that
  consume them.  A raised `requests` exception is an `Except.error`.
-/

/-- A Slack message restricted to the fields the fetcher logic reads:
`ts`, `reply_count` (default 0), `user` and `text`. -/
structure Msg where
  ts : Option ℚ
  reply_count : Nat
  user : List Char
  text : List Char
deriving DecidableEq, Repr

/-- The float sort/filter key `float(m.get("ts", 0))` used at lines 1348, 1381,
1858 and 2616 of the source. -/
def tsKey (m : Msg) : ℚ := m.ts.getD 0

/-- The comparison used as the sort key order (Python `sort`/`sorted` with
`key=lambda m: float(m.get("ts", 0))`). -/
def msgRel (a b : Msg) : Prop := tsKey a ≤ tsKey b

instance : DecidableRel msgRel := fun a b => inferInstanceAs (Decidable (tsKey a ≤ tsKey b))

instance : IsTotal Msg msgRel := ⟨fun a b => le_total (tsKey a) (tsKey b)⟩

instance : IsTrans Msg msgRel := ⟨fun _ _ _ => le_trans⟩

/-- Python's `list.sort` / `sorted` with the ts float key.  Python's sort is
stable, so any stable sort by the same key produces the same list; a stable
insertion sort models it. -/
def sortByTs (l : List Msg) : List Msg := l.insertionSort msgRel

/-- Python dict assignment `d[k] = v`: replaces in place if the key exists
(keeping its position), otherwise appends at the end. -/
def pyDictSet {κ α : Type} [DecidableEq κ] (k : κ) (v : α) : List (κ × α) → List (κ × α)
  | [] => [(k, v)]
  | (k', v') :: rest => if k' = k then (k, v) :: rest else (k', v') :: pyDictSet k v rest

/-- The dict comprehension at line 1378:
`deduped = hash-map from m.get("ts") to m for m in combined_msgs if m.get("ts")`.
Messages without a truthy `ts` are dropped; repeated `ts` keeps the last
message under the first occurrence's position. -/
def pyDictByTs (msgs : List Msg) : List (ℚ × Msg) :=
  msgs.foldl (fun d m =>
    match m.ts with
    | none => d
    | some t => pyDictSet t m d) []

/-- The keep-first deduplication loop at lines 1846-1856: a `seen_ts` set,
messages without a truthy `ts` are skipped. -/
def dedupFirstAux (seen : List ℚ) : List Msg → List Msg
  | [] => []
  | m :: rest =>
    match m.ts with
    | none => dedupFirstAux seen rest
    | some t =>
      if t ∈ seen then dedupFirstAux seen rest
      else m :: dedupFirstAux (t :: seen) rest

/-- One response of the paginated `conversations.history` Web API call
(lines 1325-1344).  `httpError` models `resp.raise_for_status()` raising;
`ok` is the payload's `ok` flag; `next_cursor` is the truthiness of
`response_metadata.next_cursor`. -/
structure ApiPage where
  httpError : Bool
  ok : Bool
  messages : List Msg
  next_cursor : Bool
deriving DecidableEq, Repr

/-- The `while True` pagination loop of `_fetch_history_via_api_sync`
(lines 1325-1345).  Each iteration consumes the next server response; an
exhausted response list means the next request got no answer (a network
failure, hence an exception like `raise_for_status`).  A non-OK payload
breaks out of the loop keeping the accumulated messages; an HTTP error
raises (`Except.error`), losing them. -/
def historyLoop : List ApiPage → List Msg → Except Unit (List Msg)
  | [], _ => .error ()
  | p :: ps, acc =>
    if p.httpError then .error ()
    else if ¬ p.ok then .ok acc
    else
      let acc' := acc ++ p.messages
      if p.next_cursor then historyLoop ps acc' else .ok acc'

/-- `_fetch_history_via_api_sync` (lines 1291-1349): requires token & cookies
(else returns `[]`), paginates, then sorts chronologically by the ts float
key.  Raised request exceptions propagate to the caller. -/
def _fetch_history_via_api_sync (hasCreds : Bool) (pages : List ApiPage) :
    Except Unit (List Msg) :=
  if ¬ hasCreds then .ok []
  else
    match historyLoop pages [] with
    | .error e => .error e
    | .ok msgs => .ok (sortByTs msgs)

/-- Thread-reply expansion of the direct-API path (lines 1365-1375): for every
parent with `reply_count > 0` and a truthy `ts`, the `conversations.replies`
response is consulted; `none` models a failed call, a non-OK payload or a
non-list `messages` field (all skipped); on success the parent message
(`messages[0]`) is dropped. -/
def threadedMsgs (api_msgs : List Msg) (replies : ℚ → Option (List Msg)) : List Msg :=
  api_msgs.flatMap fun parent =>
    if parent.reply_count > 0 then
      match parent.ts with
      | some t =>
        match replies t with
        | some l => l.drop 1
        | none => []
      | none => []
    else []

/-- Lines 1376-1381 of `fetch_conversation_history`: combine history and
thread replies, deduplicate by `ts` via a dict comprehension, and return the
values sorted by the ts float key. -/
def directPathMessages (api_msgs : List Msg) (replies : ℚ → Option (List Msg)) : List Msg :=
  sortByTs ((pyDictByTs (api_msgs ++ threadedMsgs api_msgs replies)).map Prod.snd)

/-- One record of the intercepted-call buffer as read by the UI-scroll harvest
(lines 1802-1843), classified by endpoint. `infoLike` covers
`conversations.info` / `conversations.members` / `files.info` /
`reactions.get` records, whose optional `message` field is harvested. -/
inductive Intercepted where
  | history (ok : Bool) (messages : List Msg)
  | replies (ok : Bool) (messages : List Msg)
  | infoLike (ok : Bool) (message : Option Msg)
  | other
deriving DecidableEq, Repr

/-- The harvest loop at lines 1802-1843: pull messages out of the intercepted
buffer, keeping only those with `float(msg.get("ts", "0")) > oldest_ts`;
thread-reply records drop their first (parent) message. -/
def harvestIntercepted (data : List Intercepted) (oldest_ts : ℚ) : List Msg :=
  data.flatMap fun d =>
    match d with
    | .history ok msgs =>
      if ok then msgs.filter (fun m => decide (oldest_ts < tsKey m)) else []
    | .replies ok msgs =>
      if ok then (msgs.drop 1).filter (fun m => decide (oldest_ts < tsKey m)) else []
    | .infoLike ok msg? =>
      if ok then
        match msg? with
        | some m => if oldest_ts < tsKey m then [m] else []
        | none => []
      else []
    | .other => []

/-- Lines 1845-1872: harvest, keep-first dedup by `ts`, sort ascending. -/
def uiPathMessages (data : List Intercepted) (oldest_ts : ℚ) : List Msg :=
  sortByTs (dedupFirstAux [] (harvestIntercepted data oldest_ts))

/-- The environment one call of `fetch_conversation_history` runs against:
credential state, the direct-API responses, the `conversations.info`
verification result, and the UI-scroll session (page availability, a
navigation/timeout error, and the intercepted buffer accumulated by
scrolling). -/
structure FetchEnv where
  hasCreds : Bool
  pages : List ApiPage
  replies : ℚ → Option (List Msg)
  infoOk : Bool
  hasPage : Bool
  uiError : Bool
  uiData : List Intercepted

/-- The UI-scroll fallback (lines 1402-1877): no page or a navigation error
yields `[]`; otherwise the harvested, deduplicated, sorted messages. -/
def uiScrollFallback (env : FetchEnv) (oldest_ts : ℚ) : List Msg :=
  if ¬ env.hasPage then []
  else if env.uiError then []
  else uiPathMessages env.uiData oldest_ts

/-- `fetch_conversation_history` (lines 1355-1877): prefer the direct Web-API
path; a raised request exception falls back to UI scroll (line 1398); an
empty API result with `oldest_ts = 0` and a confirming `conversations.info`
returns `[]` (empty channel), otherwise falls back to UI scroll. -/
def fetch_conversation_history (env : FetchEnv) (oldest_ts : ℚ) : List Msg :=
  if env.hasCreds then
    match _fetch_history_via_api_sync env.hasCreds env.pages with
    | .error _ => uiScrollFallback env oldest_ts
    | .ok api_msgs =>
      if api_msgs.isEmpty then
        if oldest_ts = 0 ∧ env.infoOk then []
        else uiScrollFallback env oldest_ts
      else directPathMessages api_msgs env.replies
  else uiScrollFallback env oldest_ts

/-- Python `max` over a list (the code only applies it to non-empty lists,
where Python would raise on `[]`; the `[]` case is an unreachable default). -/
def pyMax : List ℚ → ℚ
  | [] => 0
  | x :: xs => xs.foldl max x

/-- Per-conversation export state: the tracker entry
(`tracker["channels"].get(channel_id)`), whether the markdown file exists,
and how many message lines it holds (the header block is not counted). -/
structure ChannelState where
  trackerVal : Option ℚ
  mdExists : Bool
  mdMsgLines : Nat
deriving DecidableEq, Repr

/-- The incremental core of `_export_single_channel` (lines 2587-2664), taking
the raw result of `fetch_conversation_history` as input: read the watermark
(`tracker.get(channel_id, 0)`), filter `float(m.get("ts", 0)) > last_ts`
(line 2616), return early on no new messages (no write, no tracker update);
otherwise append one markdown line per message and set the tracker entry to
the maximum ts float of the exported messages (lines 2657-2660). -/
def _export_single_channel (raw_messages : List Msg) (st : ChannelState) : ChannelState :=
  let last_ts := st.trackerVal.getD 0
  let messages := raw_messages.filter (fun m => decide (last_ts < tsKey m))
  if messages.isEmpty then st
  else
    { trackerVal := some (pyMax (messages.map tsKey))
      mdExists := true
      mdMsgLines := st.mdMsgLines + messages.length }

/-- The tail of `main`'s interactive single-channel flow (lines 2927-2977),
taking the fetched message list: return early when empty, otherwise append
every message line (append mode when the file exists) and overwrite the
tracker entry with `max(float(m["ts"]))` unconditionally. -/
def mainExportTail (messages : List Msg) (st : ChannelState) : ChannelState :=
  if messages.isEmpty then st
  else
    { trackerVal := some (pyMax (messages.map tsKey))
      mdExists := true
      mdMsgLines := st.mdMsgLines + messages.length }

/-- `main`'s single-channel export (lines 2855-2977): the fetch is always
invoked with `oldest_ts = 0` (lines 2863 and 2920), never with the tracker
watermark, and its result is fed to the write/tracker tail unfiltered. -/
def mainSingleExport (env : FetchEnv) (st : ChannelState) : ChannelState :=
  mainExportTail (fetch_conversation_history env 0) st

/-- An intercepted request as `update_from_request` reads it: the HTTP method,
the POST body (`none` when absent or when accessing it raised), and the
`cookie` header if present. -/
structure SlackRequest where
  method : List Char
  post_data : Option (List Char)
  cookie_header : Option (List Char)

/-- Optional `user_id` / `team_id` entries of the `response_data` dict. -/
structure ResponseData where
  user_id : Option (List Char)
  team_id : Option (List Char)

/-- The in-memory credential record of `SlackCredentials`. -/
structure SlackCredentials where
  cookies : List (List Char × List Char)
  token : List Char
  user_id : List Char
  team_id : List Char
  last_updated : ℚ
deriving DecidableEq

/-- The regex character class `[a-zA-Z0-9-]`. -/
def isTokenChar (c : Char) : Bool := c.isAlphanum || c = '-'

/-- `re.search(r'(xoxc-[a-zA-Z0-9-]+)', body)` (line 188): leftmost
occurrence of `xoxc-` followed by a non-empty maximal run of token
characters. -/
def search_xoxc : List Char → Option (List Char)
  | [] => none
  | c :: tl =>
    match c :: tl with
    | 'x' :: 'o' :: 'x' :: 'c' :: '-' :: rest =>
      let run := rest.takeWhile isTokenChar
      if run.isEmpty then search_xoxc tl
      else some ('x' :: 'o' :: 'x' :: 'c' :: '-' :: run)
    | _ => search_xoxc tl

/-- `re.search(r'(xox[a-z]-[a-zA-Z0-9-]+)', body)` (line 192). -/
def search_xox_any : List Char → Option (List Char)
  | [] => none
  | c :: tl =>
    match c :: tl with
    | 'x' :: 'o' :: 'x' :: f :: '-' :: rest =>
      let run := rest.takeWhile isTokenChar
      if ('a' ≤ f ∧ f ≤ 'z') ∧ ¬ run.isEmpty then
        some ('x' :: 'o' :: 'x' :: f :: '-' :: run)
      else search_xox_any tl
    | _ => search_xox_any tl

/-- Python's `needle in hay` substring test. -/
def containsSub (needle : List Char) : List Char → Bool
  | [] => needle.isEmpty
  | c :: tl => needle.isPrefixOf (c :: tl) || containsSub needle tl

/-- Lines 182-196: token extraction from a POST body.  Guarded by
`post_data and "token" in post_data`; the `xoxc-` search runs first when that
marker occurs, then the generic `xox[a-z]-` search may overwrite it. -/
def extract_post_token (tok : List Char) (pd : List Char) : List Char :=
  if ¬ pd.isEmpty ∧ containsSub ("token".toList) pd then
    let tok1 :=
      if containsSub ("xoxc-".toList) pd then
        match search_xoxc pd with
        | some t => t
        | none => tok
      else tok
    match search_xox_any pd with
    | some t => t
    | none => tok1
  else tok

/-- Python `str.strip()`: drop leading and trailing whitespace. -/
def pyStrip (l : List Char) : List Char :=
  ((l.dropWhile Char.isWhitespace).reverse.dropWhile Char.isWhitespace).reverse

/-- Python `s.split("=", 1)` on a string containing `=`: the part before the
first `=` and everything after it. -/
def splitAtFirstEq : List Char → List Char × List Char
  | [] => ([], [])
  | c :: tl =>
    if c = '=' then ([], tl)
    else
      let p := splitAtFirstEq tl
      (c :: p.1, p.2)

/-- The regex character class `[0-9a-fA-F]`. -/
def isHexChar (c : Char) : Bool :=
  c.isDigit || ('a' ≤ c ∧ c ≤ 'f') || ('A' ≤ c ∧ c ≤ 'F')

/-- `urllib.parse.unquote` restricted to single-byte percent escapes (Slack
cookie values are ASCII); an invalid escape is left as-is, matching Python. -/
def unquote : List Char → List Char
  | [] => []
  | '%' :: h1 :: h2 :: rest =>
    match isHexChar h1, isHexChar h2 with
    | true, true =>
      let hv := fun c : Char =>
        if c.isDigit then c.toNat - '0'.toNat
        else if 'a' ≤ c ∧ c ≤ 'f' then c.toNat - 'a'.toNat + 10
        else c.toNat - 'A'.toNat + 10
      Char.ofNat (16 * hv h1 + hv h2) :: unquote rest
    | _, _ => '%' :: unquote (h1 :: h2 :: rest)
  | c :: tl => c :: unquote tl

/-- One iteration of the cookie-header loop (lines 203-216), threading the
evolving `(cookies, token)` state: pairs without `=` are skipped; the `d`
cookie seeds the token only when the token is still empty at that point and
the decoded value starts with `xox`. -/
def processCookiePair (acc : List (List Char × List Char) × List Char)
    (pair : List Char) : List (List Char × List Char) × List Char :=
  if pair.contains '=' then
    let kv := splitAtFirstEq (pyStrip pair)
    let cookies' := pyDictSet kv.1 kv.2 acc.1
    if kv.1 = "d".toList ∧ ¬ kv.2.isEmpty ∧ acc.2.isEmpty then
      let decoded := unquote kv.2
      if ("xox".toList).isPrefixOf decoded then (cookies', decoded)
      else (cookies', acc.2)
    else (cookies', acc.2)
  else acc

/-- `SlackCredentials.update_from_request` (lines 179-226): POST-body token
extraction, cookie-header merge (with the `d`-cookie token fallback),
optional `user_id`/`team_id` merge from `response_data`, and finally
`last_updated` is touched whenever the token field is non-empty
(`if self.token:` at line 225) — found this call or retained from before. -/
def update_from_request (c : SlackCredentials) (req : SlackRequest)
    (response_data : Option ResponseData) (now : ℚ) : SlackCredentials :=
  let tok1 :=
    if req.method = "POST".toList then
      match req.post_data with
      | some pd => extract_post_token c.token pd
      | none => c.token
    else c.token
  let ck_tok :=
    match req.cookie_header with
    | some cs => (cs.splitOn ';').foldl processCookiePair (c.cookies, tok1)
    | none => (c.cookies, tok1)
  let uid :=
    match response_data with
    | some rd => rd.user_id.getD c.user_id
    | none => c.user_id
  let tid :=
    match response_data with
    | some rd => rd.team_id.getD c.team_id
    | none => c.team_id
  { cookies := ck_tok.1
    token := ck_tok.2
    user_id := uid
    team_id := tid
    last_updated := if ¬ ck_tok.2.isEmpty then now else c.last_updated }

/-- The JSON record `save` writes to the credentials file (lines 154-161). -/
structure CredsRecord where
  cookies : List (List Char × List Char)
  token : List Char
  user_id : List Char
  team_id : List Char
  last_updated : ℚ
deriving DecidableEq

/-- `SlackCredentials.save` (lines 152-161): unconditionally overwrites the
credentials file with the in-memory record.  The on-disk state is threaded
as `Option CredsRecord` (`none`: no file). -/
def SlackCredentials.save (c : SlackCredentials) (_disk : Option CredsRecord) :
    Option CredsRecord :=
  some ⟨c.cookies, c.token, c.user_id, c.team_id, c.last_updated⟩

/-- `SlackBrowser.save_credentials` (lines 1947-1951): calls `save` only when
the token is truthy — the sole call site of `SlackCredentials.save`. -/
def save_credentials (c : SlackCredentials) (disk : Option CredsRecord) :
    Option CredsRecord :=
  if ¬ c.token.isEmpty then SlackCredentials.save c disk else disk

/-- Parsed Python/JSON values, for the dynamically-typed `load` path. -/
inductive PyJson where
  | obj (fields : List (String × PyJson))
  | arr (elems : List PyJson)
  | str (s : String)
  | num (q : ℚ)
  | bool (b : Bool)
  | null

/-- The possible states of the credentials file as `load` encounters them:
absent, unreadable (`IOError`), not parseable as JSON (`JSONDecodeError`),
or parsed into a JSON value. -/
inductive CredsFileState where
  | absent
  | unreadable
  | notJson
  | parsed (data : PyJson)

/-- The record `load` produces, with the dynamically-typed values the Python
attribute assignments store. -/
structure LoadedCreds where
  cookies : PyJson
  token : PyJson
  user_id : PyJson
  team_id : PyJson
  last_updated : PyJson

/-- The all-empty record a fresh `SlackCredentials()` holds. -/
def emptyCreds : LoadedCreds := ⟨.obj [], .str "", .str "", .str "", .num 0⟩

/-- Python `data.get(key, default)`: on a dict, the entry or the default; on
any other value an `AttributeError` is raised (`Except.error`). -/
def pyGet (v : PyJson) (key : String) (dflt : PyJson) : Except Unit PyJson :=
  match v with
  | .obj fields => .ok ((fields.lookup key).getD dflt)
  | _ => .error ()

/-- `SlackCredentials.load` (lines 163-177): a missing file or a caught
read/parse error (`json.JSONDecodeError`, `IOError`) yields the all-empty
record; any other exception — such as the `AttributeError` from `data.get`
when the parsed JSON is not an object — propagates to the caller. -/
def SlackCredentials.load (file : CredsFileState) : Except Unit LoadedCreds :=
  match file with
  | .absent => .ok emptyCreds
  | .unreadable => .ok emptyCreds
  | .notJson => .ok emptyCreds
  | .parsed data => do
    let ck ← pyGet data "cookies" (.obj [])
    let tk ← pyGet data "token" (.str "")
    let uid ← pyGet data "user_id" (.str "")
    let tid ← pyGet data "team_id" (.str "")
    let lu ← pyGet data "last_updated" (.num 0)
    .ok ⟨ck, tk, uid, tid, lu⟩

/-- Lowercasing, `str.lower()` on the character list model. -/
def lowerL (l : List Char) : List Char := l.map Char.toLower

/-- `_load_channel_map` (lines 2138-2146): the persisted map without the
keys that start with an underscore (such as the `_updated` stamp). -/
def _load_channel_map (file : List (List Char × List Char)) :
    List (List Char × List Char) :=
  file.filter (fun e => ¬ (['_'].isPrefixOf e.1))

/-- One iteration of the `_save_channel_map` upsert loop (lines 2156-2165):
skip falsy ids/names and names not starting with `#`; strip the leading `#`
markers; skip placeholders (lowercased name starting with `channel_` or
`group_`, or equal to the lowercased id); otherwise upsert and mark the map
updated when the entry is new or changed. -/
def channelMapStep (acc : List (List Char × List Char) × Bool)
    (entry : List Char × List Char) : List (List Char × List Char) × Bool :=
  let cid := entry.1
  let cname := entry.2
  if cid.isEmpty ∨ cname.isEmpty ∨ ¬ (['#'].isPrefixOf cname) then acc
  else
    let name_plain := cname.dropWhile (fun c => c = '#')
    if ("channel_".toList).isPrefixOf (lowerL name_plain)
        ∨ ("group_".toList).isPrefixOf (lowerL name_plain)
        ∨ lowerL name_plain = lowerL cid then acc
    else
      match acc.1.lookup cid with
      | some old => if old = name_plain then acc else (pyDictSet cid name_plain acc.1, true)
      | none => (pyDictSet cid name_plain acc.1, true)

/-- `_save_channel_map` (lines 2148-2173): load the existing map, upsert the
resolvable entries of `channel_dict`, and flush (with a fresh `_updated`
stamp) only when something changed; otherwise the file is left untouched. -/
def _save_channel_map (file : List (List Char × List Char))
    (channel_dict : List (List Char × List Char)) (now : List Char) :
    List (List Char × List Char) :=
  let res := channel_dict.foldl channelMapStep (_load_channel_map file, false)
  if res.2 then pyDictSet ("_updated".toList) now res.1 else file

/-- A `conversations.list` page entry: `none` models a non-dict element,
otherwise the `id` and `name` fields (possibly empty). -/
structure ChannelEntry where
  id : List Char
  name : List Char
deriving DecidableEq, Repr

/-- One `conversations.list` response as returned by `_api_post_sync`
(lines 869-884): `httpFail` models a `RequestException` that the wrapper
catches, turning the payload into the empty dict (so `ok` reads falsy). -/
structure ListPage where
  httpFail : Bool
  ok : Bool
  channels : List (Option ChannelEntry)
  next_cursor : Bool
deriving DecidableEq, Repr

/-- Lines 878-883: fold the channel entries of one page into the map. -/
def addChannels (acc : List (List Char × List Char))
    (entries : List (Option ChannelEntry)) : List (List Char × List Char) :=
  entries.foldl (fun acc e =>
    match e with
    | some ch =>
      if ¬ ch.id.isEmpty ∧ ¬ ch.name.isEmpty then pyDictSet ch.id ('#' :: ch.name) acc
      else acc
    | none => acc) acc

/-- The `conversations.list` pagination loop of `get_channel_list`
(lines 867-886).  `_api_post_sync` swallows HTTP failures into an empty
payload, so a failed call (and an exhausted response list) reads as non-OK
and breaks, keeping the accumulated map. -/
def get_channel_list_loop (channels : List (List Char × List Char)) :
    List ListPage → List (List Char × List Char)
  | [] => channels
  | p :: ps =>
    if p.httpFail ∨ ¬ p.ok then channels
    else
      let channels' := addChannels channels p.channels
      if p.next_cursor then get_channel_list_loop channels' ps else channels'

/-- A `users.list` member entry (`none`: the `id` lookup and guards read
from a non-dict as falsy is not needed — the code indexes dict members, so
`none` models an absent/odd element skipped by the falsy-id guard). -/
structure UserMember where
  id : List Char
  deleted : Bool
  is_bot : Bool
  display_name : List Char
  real_name : List Char
  name : List Char
deriving DecidableEq, Repr

/-- One `users.list` response via `_api_post_sync` (lines 1905-1925). -/
structure UsersPage where
  httpFail : Bool
  ok : Bool
  members : List (Option UserMember)
  next_cursor : Bool
deriving DecidableEq, Repr

/-- Python `a or b` on strings: the first truthy operand. -/
def pyOr (a b : List Char) : List Char := if a.isEmpty then b else a

/-- Python `s[-n:]`. -/
def takeRight (n : Nat) (l : List Char) : List Char := l.drop (l.length - n)

/-- Lines 1911-1922: fold the members of one page into the user map, skipping
falsy ids, deleted accounts and bots; the display name is the first truthy of
`profile.display_name`, `profile.real_name`, `name`, and the synthesized
`User_<last 6 of id>`. -/
def addMembers (acc : List (List Char × List Char))
    (members : List (Option UserMember)) : List (List Char × List Char) :=
  members.foldl (fun acc m? =>
    match m? with
    | some m =>
      if m.id.isEmpty ∨ m.deleted ∨ m.is_bot then acc
      else
        pyDictSet m.id
          (pyOr m.display_name (pyOr m.real_name
            (pyOr m.name ("User_".toList ++ takeRight 6 m.id)))) acc
    | none => acc) acc

/-- The `users.list` pagination loop of `get_user_list` (lines 1903-1926),
with the same graceful-abort shape as the channel loop. -/
def get_user_list_loop (users : List (List Char × List Char)) :
    List UsersPage → List (List Char × List Char)
  | [] => users
  | p :: ps =>
    if p.httpFail ∨ ¬ p.ok then users
    else
      let users' := addMembers users p.members
      if p.next_cursor then get_user_list_loop users' ps else users'

/-- `users.get(user_id, f"User_..." if user_id else "System")` at line 2305. -/
def userDisplayName (users : List (List Char × List Char)) (uid : List Char) :
    List Char :=
  match users.lookup uid with
  | some n => n
  | none => if uid.isEmpty then "System".toList else "User_".toList ++ takeRight 6 uid

/-- `_markdown_line` (lines 2299-2487) restricted to its field accesses: the
function opens with the unguarded `float(msg["ts"])`, which raises
(`KeyError` or `ValueError`) when the message has no truthy `ts` — modelled
as `none`.  The textual strftime/regex formatting of the produced line is
not modelled; the result carries the data the line is rendered from. -/
def _markdown_line (msg : Msg) (users : List (List Char × List Char)) :
    Option (ℚ × List Char × List Char) :=
  match msg.ts with
  | none => none
  | some q => some (q, userDisplayName users msg.user, msg.text)

/-! ### Concrete fixtures used by witnesses and counterexamples -/

/-- A message with ts 100 and no thread replies. -/
def exMsg100 : Msg := ⟨some 100, 0, [], []⟩

/-- A message with ts 250 and no thread replies. -/
def exMsg250 : Msg := ⟨some 250, 0, [], []⟩

/-- An environment whose direct-API path succeeds with messages at ts 250 and
ts 100 on a single page. -/
def exEnv : FetchEnv :=
  ⟨true, [⟨false, true, [exMsg250, exMsg100], false⟩], fun _ => none, true, true, false, []⟩

/-- An environment whose direct-API path succeeds with only the ts-100
message (e.g. a later run that sees less than an earlier one did). -/
def exEnvLate : FetchEnv :=
  ⟨true, [⟨false, true, [exMsg100], false⟩], fun _ => none, true, true, false, []⟩

/-- A credential record already holding a token captured on an earlier call. -/
def exCreds : SlackCredentials := ⟨[], "xoxb-1".toList, [], [], 5⟩

/-- A GET request carrying no POST body and no cookie header: no token
material at all. -/
def exReqGet : SlackRequest := ⟨"GET".toList, none, none⟩

/-! ### Helper lemmas: the stable sort -/

theorem sortByTs_perm (l : List Msg) : List.Perm (sortByTs l) l :=
  List.perm_insertionSort msgRel l

theorem mem_sortByTs {m : Msg} {l : List Msg} : m ∈ sortByTs l ↔ m ∈ l :=
  (sortByTs_perm l).mem_iff

theorem sortByTs_chain (l : List Msg) :
    (sortByTs l).Chain' (fun a b => tsKey a ≤ tsKey b) :=
  List.Pairwise.chain' (List.sorted_insertionSort msgRel l)

theorem sortByTs_countP (p : Msg → Bool) (l : List Msg) :
    (sortByTs l).countP p = l.countP p :=
  (sortByTs_perm l).countP_eq p

theorem sortByTs_nodup_map_ts {l : List Msg} (h : (l.map Msg.ts).Nodup) :
    ((sortByTs l).map Msg.ts).Nodup :=
  (((sortByTs_perm l).map Msg.ts).nodup_iff).mpr h

/-! ### Helper lemmas: Python dict upsert -/

theorem pyDictSet_cons_eq {κ α : Type} [DecidableEq κ] {k k' : κ} {v v' : α}
    {rest : List (κ × α)} (h : k' = k) :
    pyDictSet k v ((k', v') :: rest) = (k, v) :: rest := by
  simp [pyDictSet, h]

theorem pyDictSet_cons_ne {κ α : Type} [DecidableEq κ] {k k' : κ} {v v' : α}
    {rest : List (κ × α)} (h : ¬ k' = k) :
    pyDictSet k v ((k', v') :: rest) = (k', v') :: pyDictSet k v rest := by
  simp [pyDictSet, h]

theorem pyDictSet_mem {κ α : Type} [DecidableEq κ] {k : κ} {v : α}
    {d : List (κ × α)} {p : κ × α} :
    p ∈ pyDictSet k v d → p = (k, v) ∨ p ∈ d := by
  induction d with
  | nil => intro hp; simpa [pyDictSet] using hp
  | cons q rest ih =>
    intro hp
    obtain ⟨k', v'⟩ := q
    by_cases hk : k' = k
    · rw [pyDictSet_cons_eq hk] at hp
      rcases List.mem_cons.mp hp with h | h
      · exact Or.inl h
      · exact Or.inr (List.mem_cons_of_mem _ h)
    · rw [pyDictSet_cons_ne hk] at hp
      rcases List.mem_cons.mp hp with h | h
      · exact Or.inr (by simp [h])
      · rcases ih h with h' | h'
        · exact Or.inl h'
        · exact Or.inr (List.mem_cons_of_mem _ h')

theorem mem_keys_pyDictSet {κ α : Type} [DecidableEq κ] {k t : κ} {v : α}
    {d : List (κ × α)} :
    t ∈ (pyDictSet k v d).map Prod.fst ↔ t = k ∨ t ∈ d.map Prod.fst := by
  induction d with
  | nil => simp [pyDictSet, eq_comm]
  | cons q rest ih =>
    obtain ⟨k', v'⟩ := q
    by_cases hk : k' = k
    · rw [pyDictSet_cons_eq hk]
      subst hk
      simp only [List.map_cons, List.mem_cons]
      tauto
    · rw [pyDictSet_cons_ne hk]
      simp only [List.map_cons, List.mem_cons, ih]
      tauto

theorem nodup_keys_pyDictSet {κ α : Type} [DecidableEq κ] {k : κ} {v : α}
    {d : List (κ × α)} :
    (d.map Prod.fst).Nodup → ((pyDictSet k v d).map Prod.fst).Nodup := by
  induction d with
  | nil => intro _; simp [pyDictSet]
  | cons q rest ih =>
    intro h
    obtain ⟨k', v'⟩ := q
    simp only [List.map_cons, List.nodup_cons] at h
    by_cases hk : k' = k
    · rw [pyDictSet_cons_eq hk]
      subst hk
      simp only [List.map_cons, List.nodup_cons]
      exact ⟨h.1, h.2⟩
    · rw [pyDictSet_cons_ne hk]
      simp only [List.map_cons, List.nodup_cons]
      refine ⟨fun hmem => ?_, ih h.2⟩
      rcases mem_keys_pyDictSet.mp hmem with h' | h'
      · exact hk h'
      · exact h.1 h'

theorem countP_keys_eq {t : ℚ} {d : List (ℚ × Msg)} :
    (d.map Prod.fst).Nodup →
    d.countP (fun p => decide (p.1 = t)) = if t ∈ d.map Prod.fst then 1 else 0 := by
  induction d with
  | nil => intro _; simp
  | cons q rest ih =>
    intro h
    obtain ⟨k, v⟩ := q
    simp only [List.map_cons, List.nodup_cons] at h
    rw [List.countP_cons, ih h.2]
    by_cases hk : k = t
    · subst hk
      have hnot : ¬ k ∈ rest.map Prod.fst := h.1
      simp [hnot]
    · by_cases hmem : t ∈ rest.map Prod.fst
      · simp [hmem, hk, Ne.symm hk]
      · simp [hmem, hk, Ne.symm hk]

/-! ### Helper lemmas: the ts-keyed dict comprehension -/

theorem dictFold_inv {msgs : List Msg} {d : List (ℚ × Msg)}
    (h1 : ∀ p ∈ d, p.2.ts = some p.1) (h2 : (d.map Prod.fst).Nodup) :
    (∀ p ∈ msgs.foldl (fun d m =>
        match m.ts with
        | none => d
        | some t => pyDictSet t m d) d, p.2.ts = some p.1) ∧
    ((msgs.foldl (fun d m =>
        match m.ts with
        | none => d
        | some t => pyDictSet t m d) d).map Prod.fst).Nodup := by
  induction msgs generalizing d with
  | nil => exact ⟨h1, h2⟩
  | cons m rest ih =>
    simp only [List.foldl_cons]
    cases hts : m.ts with
    | none => exact ih h1 h2
    | some t =>
      refine ih (fun p hp => ?_) (nodup_keys_pyDictSet h2)
      rcases pyDictSet_mem hp with h | h
      · subst h; exact hts
      · exact h1 p h

theorem dictFold_snd_mem {msgs : List Msg} {d : List (ℚ × Msg)} {p : ℚ × Msg}
    (hp : p ∈ msgs.foldl (fun d m =>
        match m.ts with
        | none => d
        | some t => pyDictSet t m d) d) :
    p ∈ d ∨ p.2 ∈ msgs := by
  induction msgs generalizing d with
  | nil => exact Or.inl hp
  | cons m rest ih =>
    simp only [List.foldl_cons] at hp
    cases hts : m.ts with
    | none =>
      rw [hts] at hp
      rcases ih hp with h | h
      · exact Or.inl h
      · exact Or.inr (List.mem_cons_of_mem _ h)
    | some t =>
      rw [hts] at hp
      rcases ih hp with h | h
      · rcases pyDictSet_mem h with h' | h'
        · subst h'; exact Or.inr (List.mem_cons_self _ _)
        · exact Or.inl h'
      · exact Or.inr (List.mem_cons_of_mem _ h)

theorem dictFold_mem_keys {msgs : List Msg} {d : List (ℚ × Msg)} {t : ℚ} :
    t ∈ (msgs.foldl (fun d m =>
        match m.ts with
        | none => d
        | some t => pyDictSet t m d) d).map Prod.fst ↔
      t ∈ d.map Prod.fst ∨ ∃ m ∈ msgs, m.ts = some t := by
  induction msgs generalizing d with
  | nil => simp
  | cons m rest ih =>
    simp only [List.foldl_cons]
    cases hts : m.ts with
    | none =>
      rw [ih]
      simp only [List.mem_cons]
      constructor
      · rintro (h | ⟨m', hm', hts'⟩)
        · exact Or.inl h
        · exact Or.inr ⟨m', Or.inr hm', hts'⟩
      · rintro (h | ⟨m', hm' | hm', hts'⟩)
        · exact Or.inl h
        · subst hm'; rw [hts] at hts'; cases hts'
        · exact Or.inr ⟨m', hm', hts'⟩
    | some t' =>
      rw [ih]
      simp only [mem_keys_pyDictSet, List.mem_cons]
      constructor
      · rintro ((h | h) | ⟨m', hm', hts'⟩)
        · exact Or.inr ⟨m, Or.inl rfl, by rw [hts, h]⟩
        · exact Or.inl h
        · exact Or.inr ⟨m', Or.inr hm', hts'⟩
      · rintro (h | ⟨m', hm' | hm', hts'⟩)
        · exact Or.inl (Or.inr h)
        · subst hm'; rw [hts] at hts'
          exact Or.inl (Or.inl (by injection hts' with h'; exact h'.symm))
        · exact Or.inr ⟨m', hm', hts'⟩

theorem pyDictByTs_inv (msgs : List Msg) :
    (∀ p ∈ pyDictByTs msgs, p.2.ts = some p.1) ∧
    ((pyDictByTs msgs).map Prod.fst).Nodup :=
  dictFold_inv (by simp) (by simp)

theorem pyDictByTs_snd_mem {msgs : List Msg} {p : ℚ × Msg}
    (hp : p ∈ pyDictByTs msgs) : p.2 ∈ msgs := by
  rcases dictFold_snd_mem hp with h | h
  · cases h
  · exact h

theorem pyDictByTs_mem_keys {msgs : List Msg} {t : ℚ} :
    t ∈ (pyDictByTs msgs).map Prod.fst ↔ ∃ m ∈ msgs, m.ts = some t := by
  rw [pyDictByTs, dictFold_mem_keys]
  simp

/-! ### Helper lemmas: keep-first dedup -/

theorem dedupFirstAux_subset {seen : List ℚ} {l : List Msg} {m : Msg}
    (hm : m ∈ dedupFirstAux seen l) : m ∈ l := by
  induction l generalizing seen with
  | nil => cases hm
  | cons x rest ih =>
    cases hts : x.ts with
    | none =>
      simp only [dedupFirstAux, hts] at hm
      exact List.mem_cons_of_mem _ (ih hm)
    | some t =>
      simp only [dedupFirstAux, hts] at hm
      by_cases hs : t ∈ seen
      · rw [if_pos hs] at hm
        exact List.mem_cons_of_mem _ (ih hm)
      · rw [if_neg hs] at hm
        rcases List.mem_cons.mp hm with h | h
        · subst h; exact List.mem_cons_self _ _
        · exact List.mem_cons_of_mem _ (ih h)

theorem dedupFirstAux_isSome {seen : List ℚ} {l : List Msg} {m : Msg}
    (hm : m ∈ dedupFirstAux seen l) : m.ts.isSome := by
  induction l generalizing seen with
  | nil => cases hm
  | cons x rest ih =>
    cases hts : x.ts with
    | none =>
      simp only [dedupFirstAux, hts] at hm
      exact ih hm
    | some t =>
      simp only [dedupFirstAux, hts] at hm
      by_cases hs : t ∈ seen
      · rw [if_pos hs] at hm; exact ih hm
      · rw [if_neg hs] at hm
        rcases List.mem_cons.mp hm with h | h
        · subst h; simp [hts]
        · exact ih h

theorem dedupFirstAux_countP (seen : List ℚ) (l : List Msg) (t : ℚ) :
    (dedupFirstAux seen l).countP (fun m => decide (m.ts = some t)) =
      if t ∈ seen then 0
      else if l.any (fun m => decide (m.ts = some t)) then 1 else 0 := by
  induction l generalizing seen with
  | nil => simp [dedupFirstAux]
  | cons x rest ih =>
    cases hts : x.ts with
    | none =>
      simp only [dedupFirstAux, hts, List.any_cons]
      rw [ih]
      have : (decide (x.ts = some t)) = false := by simp [hts]
      rw [hts] at this
      simp [hts]
    | some t' =>
      simp only [dedupFirstAux, hts, List.any_cons]
      by_cases hs : t' ∈ seen
      · rw [if_pos hs, ih]
        by_cases hseen : t ∈ seen
        · simp [hseen]
        · have hne : ¬ t' = t := fun h => hseen (h ▸ hs)
          simp [hseen, hts, hne, Ne.symm hne]
      · rw [if_neg hs, List.countP_cons, ih]
        by_cases ht : t' = t
        · subst ht
          simp [hs, hts]
        · have h1 : ¬ t ∈ t' :: seen ↔ ¬ t ∈ seen := by
            simp only [List.mem_cons]
            constructor
            · intro h hmem; exact h (Or.inr hmem)
            · intro h hmem
              rcases hmem with h' | h'
              · exact ht h'.symm
              · exact h h'
          by_cases hseen : t ∈ seen
          · have : t ∈ t' :: seen := List.mem_cons_of_mem _ hseen
            simp [hseen, this, hts, ht]
          · have : ¬ t ∈ t' :: seen := h1.mpr hseen
            simp [hseen, this, hts, ht]

theorem dedupFirstAux_nodup_ts (seen : List ℚ) (l : List Msg) :
    ((dedupFirstAux seen l).map Msg.ts).Nodup := by
  induction l generalizing seen with
  | nil => simp [dedupFirstAux]
  | cons x rest ih =>
    cases hts : x.ts with
    | none =>
      simp only [dedupFirstAux, hts]
      exact ih seen
    | some t =>
      simp only [dedupFirstAux, hts]
      by_cases hs : t ∈ seen
      · rw [if_pos hs]; exact ih seen
      · rw [if_neg hs]
        simp only [List.map_cons, List.nodup_cons]
        refine ⟨fun hmem => ?_, ih (t :: seen)⟩
        rcases List.mem_map.mp hmem with ⟨m', hm', hts'⟩
        have hcount := dedupFirstAux_countP (t :: seen) rest t
        rw [if_pos (List.mem_cons_self _ _)] at hcount
        have hpos : 0 < (dedupFirstAux (t :: seen) rest).countP
            (fun m => decide (m.ts = some t)) := by
          rw [List.countP_pos_iff]
          exact ⟨m', hm', by simp [hts', hts]⟩
        omega

/-! ### Helper lemmas: harvest, pagination, thread expansion -/

theorem harvest_gt {data : List Intercepted} {oldest_ts : ℚ} {m : Msg}
    (hm : m ∈ harvestIntercepted data oldest_ts) : oldest_ts < tsKey m := by
  rw [harvestIntercepted, List.mem_flatMap] at hm
  rcases hm with ⟨d, _, hmem⟩
  cases d with
  | history ok msgs =>
    by_cases hok : ok = true
    · simp only [hok, if_pos] at hmem
      have := List.of_mem_filter hmem
      simpa using this
    · simp [Bool.eq_false_iff.mpr hok] at hmem
  | replies ok msgs =>
    by_cases hok : ok = true
    · simp only [hok, if_pos] at hmem
      have := List.of_mem_filter hmem
      simpa using this
    · simp [Bool.eq_false_iff.mpr hok] at hmem
  | infoLike ok msg? =>
    by_cases hok : ok = true
    · simp only [hok, if_pos] at hmem
      cases msg? with
      | some m' =>
        have hmem' : m ∈ (if oldest_ts < tsKey m' then [m'] else []) := hmem
        by_cases hgt : oldest_ts < tsKey m'
        · rw [if_pos hgt] at hmem'
          rcases List.mem_singleton.mp hmem' with rfl
          exact hgt
        · rw [if_neg hgt] at hmem'; cases hmem'
      | none => cases hmem
    · simp [Bool.eq_false_iff.mpr hok] at hmem
  | other => cases hmem

theorem historyLoop_mem {pages : List ApiPage} {acc l : List Msg} {m : Msg}
    (hok : historyLoop pages acc = .ok l) (hm : m ∈ l) :
    m ∈ acc ∨ ∃ p ∈ pages, m ∈ p.messages := by
  induction pages generalizing acc with
  | nil => cases hok
  | cons p ps ih =>
    simp only [historyLoop] at hok
    by_cases he : p.httpError = true
    · rw [if_pos he] at hok; cases hok
    · rw [if_neg he] at hok
      by_cases hk : p.ok = true
      · simp only [hk, not_true, if_neg, if_false] at hok
        by_cases hc : p.next_cursor = true
        · rw [if_pos hc] at hok
          rcases ih hok with h | ⟨p', hp', hm'⟩
          · rcases List.mem_append.mp h with h' | h'
            · exact Or.inl h'
            · exact Or.inr ⟨p, List.mem_cons_self _ _, h'⟩
          · exact Or.inr ⟨p', List.mem_cons_of_mem _ hp', hm'⟩
        · rw [if_neg hc] at hok
          injection hok with hok
          subst hok
          rcases List.mem_append.mp hm with h' | h'
          · exact Or.inl h'
          · exact Or.inr ⟨p, List.mem_cons_self _ _, h'⟩
      · have : ¬ p.ok = true := hk
        simp only [this, if_pos, not_false_iff] at hok
        injection hok with hok
        subst hok
        exact Or.inl hm

theorem historyLoop_ok_exists {pages : List ApiPage} {acc : List Msg} {plast : ApiPage}
    (herr : ∀ p ∈ pages, p.httpError = false)
    (hlast : pages.getLast? = some plast) (hcur : plast.next_cursor = false) :
    ∃ l, historyLoop pages acc = .ok l := by
  induction pages generalizing acc with
  | nil => cases hlast
  | cons p ps ih =>
    have hperr : p.httpError = false := herr p (List.mem_cons_self _ _)
    simp only [historyLoop, hperr, Bool.false_eq_true, if_false]
    by_cases hk : p.ok = true
    · simp only [hk, not_true, if_false]
      by_cases hc : p.next_cursor = true
      · rw [if_pos hc]
        cases ps with
        | nil =>
          have : p = plast := by
            simpa using hlast
          subst this
          rw [hc] at hcur; cases hcur
        | cons q qs =>
          have hlast' : (q :: qs).getLast? = some plast := by
            rw [List.getLast?_cons_cons] at hlast
            exact hlast
          exact ih (fun p' hp' => herr p' (List.mem_cons_of_mem _ hp')) hlast'
      · rw [if_neg hc]
        exact ⟨_, rfl⟩
    · simp only [hk, not_false_iff, if_pos]
      exact ⟨_, rfl⟩

theorem fetch_sync_mem {hasCreds : Bool} {pages : List ApiPage} {l : List Msg} {m : Msg}
    (hok : _fetch_history_via_api_sync hasCreds pages = .ok l) (hm : m ∈ l) :
    ∃ p ∈ pages, m ∈ p.messages := by
  by_cases hc : hasCreds = true
  · simp only [_fetch_history_via_api_sync, hc, not_true, if_false] at hok
    cases hloop : historyLoop pages [] with
    | error e => rw [hloop] at hok; cases hok
    | ok msgs =>
      rw [hloop] at hok
      injection hok with hok
      subst hok
      have hm' : m ∈ msgs := mem_sortByTs.mp hm
      rcases historyLoop_mem hloop hm' with h | h
      · cases h
      · exact h
  · have : ¬ hasCreds = true := hc
    simp only [_fetch_history_via_api_sync, this, not_false_iff, if_pos] at hok
    injection hok with hok
    subst hok
    cases hm

theorem threadedMsgs_mem {api_msgs : List Msg} {replies : ℚ → Option (List Msg)} {m : Msg}
    (hm : m ∈ threadedMsgs api_msgs replies) :
    ∃ parent ∈ api_msgs, ∃ t, parent.ts = some t ∧
      ∃ l, replies t = some l ∧ m ∈ l.drop 1 := by
  rw [threadedMsgs, List.mem_flatMap] at hm
  rcases hm with ⟨parent, hparent, hmem⟩
  by_cases hrc : parent.reply_count > 0
  · rw [if_pos hrc] at hmem
    cases hts : parent.ts with
    | none => rw [hts] at hmem; cases hmem
    | some t =>
      rw [hts] at hmem
      have hmem' : m ∈ (match replies t with
        | some l => List.drop 1 l
        | none => ([] : List Msg)) := hmem
      cases hrep : replies t with
      | none => rw [hrep] at hmem'; cases hmem'
      | some rl =>
        rw [hrep] at hmem'
        exact ⟨parent, hparent, t, hts, rl, hrep, hmem'⟩
  · rw [if_neg hrc] at hmem; cases hmem

/-! ### Helper lemmas: Python max -/

theorem le_foldl_max (l : List ℚ) (a : ℚ) : a ≤ l.foldl max a := by
  induction l generalizing a with
  | nil => exact le_refl a
  | cons x xs ih =>
    simp only [List.foldl_cons]
    exact le_trans (le_max_left a x) (ih (max a x))

theorem mem_le_foldl_max {l : List ℚ} {x : ℚ} (hx : x ∈ l) (a : ℚ) :
    x ≤ l.foldl max a := by
  induction l generalizing a with
  | nil => cases hx
  | cons y ys ih =>
    simp only [List.foldl_cons]
    rcases List.mem_cons.mp hx with h | h
    · subst h
      exact le_trans (le_max_right a x) (le_foldl_max ys (max a x))
    · exact ih h (max a y)

theorem le_pyMax {l : List ℚ} {x : ℚ} (hx : x ∈ l) : x ≤ pyMax l := by
  cases l with
  | nil => cases hx
  | cons y ys =>
    rcases List.mem_cons.mp hx with h | h
    · subst h; exact le_foldl_max ys x
    · exact mem_le_foldl_max h y

theorem lt_pyMax {l : List ℚ} {c : ℚ} (hne : l ≠ []) (hall : ∀ x ∈ l, c < x) :
    c < pyMax l := by
  cases l with
  | nil => exact absurd rfl hne
  | cons y ys =>
    exact lt_of_lt_of_le (hall y (List.mem_cons_self _ _)) (le_pyMax (List.mem_cons_self _ _))

/-! ### Path-level properties of the two fetch paths -/

theorem directPath_subset {api_msgs : List Msg} {replies : ℚ → Option (List Msg)} {m : Msg}
    (hm : m ∈ directPathMessages api_msgs replies) :
    m ∈ api_msgs ++ threadedMsgs api_msgs replies := by
  rw [directPathMessages, mem_sortByTs] at hm
  rcases List.mem_map.mp hm with ⟨p, hp, hsnd⟩
  subst hsnd
  exact pyDictByTs_snd_mem hp

theorem directPath_isSome {api_msgs : List Msg} {replies : ℚ → Option (List Msg)} {m : Msg}
    (hm : m ∈ directPathMessages api_msgs replies) : m.ts.isSome := by
  rw [directPathMessages, mem_sortByTs] at hm
  rcases List.mem_map.mp hm with ⟨p, hp, hsnd⟩
  subst hsnd
  rw [(pyDictByTs_inv _).1 p hp]
  rfl

theorem directPath_nodup (api_msgs : List Msg) (replies : ℚ → Option (List Msg)) :
    ((directPathMessages api_msgs replies).map Msg.ts).Nodup := by
  rw [directPathMessages]
  apply sortByTs_nodup_map_ts
  have hinv := pyDictByTs_inv (api_msgs ++ threadedMsgs api_msgs replies)
  rw [List.map_map]
  have : (pyDictByTs (api_msgs ++ threadedMsgs api_msgs replies)).map (Msg.ts ∘ Prod.snd)
      = (pyDictByTs (api_msgs ++ threadedMsgs api_msgs replies)).map (fun p => some p.1) :=
    List.map_congr_left (fun p hp => hinv.1 p hp)
  rw [this]
  have : (pyDictByTs (api_msgs ++ threadedMsgs api_msgs replies)).map (fun p => some p.1)
      = ((pyDictByTs (api_msgs ++ threadedMsgs api_msgs replies)).map Prod.fst).map some := by
    rw [List.map_map]; rfl
  rw [this]
  exact hinv.2.map (fun a b h => by injection h)

theorem directPath_chain (api_msgs : List Msg) (replies : ℚ → Option (List Msg)) :
    (directPathMessages api_msgs replies).Chain' (fun a b => tsKey a ≤ tsKey b) :=
  sortByTs_chain _

theorem directPath_countP (api_msgs : List Msg) (replies : ℚ → Option (List Msg)) (t : ℚ) :
    (directPathMessages api_msgs replies).countP (fun m => decide (m.ts = some t)) =
      if (api_msgs ++ threadedMsgs api_msgs replies).any (fun m => decide (m.ts = some t))
      then 1 else 0 := by
  rw [directPathMessages, sortByTs_countP, List.countP_map]
  have hinv := pyDictByTs_inv (api_msgs ++ threadedMsgs api_msgs replies)
  have hcongr : (pyDictByTs (api_msgs ++ threadedMsgs api_msgs replies)).countP
        ((fun m => decide (m.ts = some t)) ∘ Prod.snd)
      = (pyDictByTs (api_msgs ++ threadedMsgs api_msgs replies)).countP
        (fun p => decide (p.1 = t)) := by
    apply List.countP_congr
    intro p hp
    simp only [Function.comp_apply, decide_eq_true_eq]
    rw [hinv.1 p hp]
    simp
  rw [hcongr, countP_keys_eq hinv.2]
  by_cases hmem : t ∈ (pyDictByTs (api_msgs ++ threadedMsgs api_msgs replies)).map Prod.fst
  · rw [if_pos hmem]
    rcases pyDictByTs_mem_keys.mp hmem with ⟨m, hm, hts⟩
    have : (api_msgs ++ threadedMsgs api_msgs replies).any
        (fun m => decide (m.ts = some t)) = true := by
      rw [List.any_eq_true]
      exact ⟨m, hm, by simp [hts]⟩
    rw [if_pos this]
  · rw [if_neg hmem]
    have : ¬ (api_msgs ++ threadedMsgs api_msgs replies).any
        (fun m => decide (m.ts = some t)) = true := by
      rw [List.any_eq_true]
      rintro ⟨m, hm, hts⟩
      simp only [decide_eq_true_eq] at hts
      exact hmem (pyDictByTs_mem_keys.mpr ⟨m, hm, hts⟩)
    rw [if_neg this]

theorem uiPath_subset {data : List Intercepted} {oldest_ts : ℚ} {m : Msg}
    (hm : m ∈ uiPathMessages data oldest_ts) :
    m ∈ harvestIntercepted data oldest_ts := by
  rw [uiPathMessages, mem_sortByTs] at hm
  exact dedupFirstAux_subset hm

theorem uiPath_gt {data : List Intercepted} {oldest_ts : ℚ} {m : Msg}
    (hm : m ∈ uiPathMessages data oldest_ts) : oldest_ts < tsKey m :=
  harvest_gt (uiPath_subset hm)

theorem uiPath_isSome {data : List Intercepted} {oldest_ts : ℚ} {m : Msg}
    (hm : m ∈ uiPathMessages data oldest_ts) : m.ts.isSome := by
  rw [uiPathMessages, mem_sortByTs] at hm
  exact dedupFirstAux_isSome hm

theorem uiPath_nodup (data : List Intercepted) (oldest_ts : ℚ) :
    ((uiPathMessages data oldest_ts).map Msg.ts).Nodup :=
  sortByTs_nodup_map_ts (dedupFirstAux_nodup_ts [] _)

theorem uiPath_chain (data : List Intercepted) (oldest_ts : ℚ) :
    (uiPathMessages data oldest_ts).Chain' (fun a b => tsKey a ≤ tsKey b) :=
  sortByTs_chain _

theorem uiPath_countP (data : List Intercepted) (oldest_ts : ℚ) (t : ℚ) :
    (uiPathMessages data oldest_ts).countP (fun m => decide (m.ts = some t)) =
      if (harvestIntercepted data oldest_ts).any (fun m => decide (m.ts = some t))
      then 1 else 0 := by
  rw [uiPathMessages, sortByTs_countP, dedupFirstAux_countP]
  simp

/-- Every run of `fetch_conversation_history` returns either `[]`, the
direct-path result for the messages the sync helper returned, or the
UI-scroll-path result. -/
theorem fetch_cases (env : FetchEnv) (oldest_ts : ℚ) :
    fetch_conversation_history env oldest_ts = [] ∨
    (∃ api_msgs, _fetch_history_via_api_sync env.hasCreds env.pages = .ok api_msgs ∧
      fetch_conversation_history env oldest_ts = directPathMessages api_msgs env.replies) ∨
    fetch_conversation_history env oldest_ts = uiPathMessages env.uiData oldest_ts := by
  have hui : uiScrollFallback env oldest_ts = [] ∨
      uiScrollFallback env oldest_ts = uiPathMessages env.uiData oldest_ts := by
    unfold uiScrollFallback
    by_cases hp : env.hasPage = true
    · by_cases he : env.uiError = true
      · simp [hp, he]
      · simp [hp, he]
    · simp [hp]
  have hstep : fetch_conversation_history env oldest_ts = [] ∨
      (∃ api_msgs, _fetch_history_via_api_sync env.hasCreds env.pages = .ok api_msgs ∧
        fetch_conversation_history env oldest_ts = directPathMessages api_msgs env.replies) ∨
      fetch_conversation_history env oldest_ts = uiScrollFallback env oldest_ts := by
    by_cases hc : env.hasCreds = true
    · cases hsync : _fetch_history_via_api_sync env.hasCreds env.pages with
      | error e =>
        have hsync' := hsync
        rw [hc] at hsync'
        have hf : fetch_conversation_history env oldest_ts = uiScrollFallback env oldest_ts := by
          simp [fetch_conversation_history, hc, hsync']
        exact Or.inr (Or.inr hf)
      | ok api_msgs =>
        have hsync' := hsync
        rw [hc] at hsync'
        by_cases hemp : api_msgs.isEmpty = true
        · by_cases hcond : oldest_ts = 0 ∧ env.infoOk = true
          · have hf : fetch_conversation_history env oldest_ts = [] := by
              have hnil : api_msgs = [] := List.isEmpty_iff.mp hemp
              simp [fetch_conversation_history, hc, hsync', hnil, hcond.1, hcond.2]
            exact Or.inl hf
          · have hf : fetch_conversation_history env oldest_ts
                = uiScrollFallback env oldest_ts := by
              have hnil : api_msgs = [] := List.isEmpty_iff.mp hemp
              simp only [fetch_conversation_history, hc, if_true, hsync', hnil,
                List.isEmpty_nil, if_pos]
              rw [if_neg hcond]
            exact Or.inr (Or.inr hf)
        · have hf : fetch_conversation_history env oldest_ts
              = directPathMessages api_msgs env.replies := by
            have hne : ¬ api_msgs = [] := fun h => hemp (by simp [h])
            simp [fetch_conversation_history, hc, hsync', hne]
          exact Or.inr (Or.inl ⟨api_msgs, rfl, hf⟩)
    · have hf : fetch_conversation_history env oldest_ts = uiScrollFallback env oldest_ts := by
        simp [fetch_conversation_history, hc]
      exact Or.inr (Or.inr hf)
  rcases hstep with h | h | h
  · exact Or.inl h
  · exact Or.inr (Or.inl h)
  · rcases hui with h' | h'
    · exact Or.inl (h.trans h')
    · exact Or.inr (Or.inr (h.trans h'))

/-! ### Helper lemmas: the export step -/

theorem export_eq_of_filter_nil {raw : List Msg} {st : ChannelState}
    (h : raw.filter (fun m => decide (st.trackerVal.getD 0 < tsKey m)) = []) :
    _export_single_channel raw st = st := by
  simp only [_export_single_channel, h]
  simp

theorem export_eq_of_filter_ne {raw : List Msg} {st : ChannelState}
    (h : ¬ raw.filter (fun m => decide (st.trackerVal.getD 0 < tsKey m)) = []) :
    _export_single_channel raw st =
      { trackerVal := some (pyMax
          ((raw.filter (fun m => decide (st.trackerVal.getD 0 < tsKey m))).map tsKey))
        mdExists := true
        mdMsgLines := st.mdMsgLines +
          (raw.filter (fun m => decide (st.trackerVal.getD 0 < tsKey m))).length } := by
  simp only [_export_single_channel]
  rw [if_neg (by simpa using h)]

theorem mainExportTail_nil {st : ChannelState} : mainExportTail [] st = st := by
  simp [mainExportTail]

theorem mainExportTail_ne {msgs : List Msg} {st : ChannelState} (h : ¬ msgs = []) :
    mainExportTail msgs st =
      { trackerVal := some (pyMax (msgs.map tsKey))
        mdExists := true
        mdMsgLines := st.mdMsgLines + msgs.length } := by
  simp only [mainExportTail]
  rw [if_neg (by simpa using h)]

theorem filter_mem_gt {raw : List Msg} {L : ℚ} {m : Msg}
    (hm : m ∈ raw.filter (fun m => decide (L < tsKey m))) : L < tsKey m := by
  have := List.of_mem_filter hm
  simpa using this

theorem filter_gt_max {raw : List Msg} {L : ℚ}
    (hne : ¬ raw.filter (fun m => decide (L < tsKey m)) = []) :
    L < pyMax ((raw.filter (fun m => decide (L < tsKey m))).map tsKey) := by
  apply lt_pyMax
  · intro h
    exact hne (List.map_eq_nil_iff.mp h)
  · intro x hx
    rcases List.mem_map.mp hx with ⟨m, hm, rfl⟩
    exact filter_mem_gt hm

theorem mem_le_filter_max {raw : List Msg} {L : ℚ} {m : Msg}
    (hm : m ∈ raw.filter (fun m => decide (L < tsKey m))) :
    tsKey m ≤ pyMax ((raw.filter (fun m => decide (L < tsKey m))).map tsKey) :=
  le_pyMax (List.mem_map.mpr ⟨m, hm, rfl⟩)

/-! ### Claim C1 -/

/-- C1, counterexample: the claim asserts that running the export flow twice
with no new upstream messages appends zero new message lines on the second
run.  For `main`'s interactive single-channel flow (lines 2855-2977), which
always fetches with `oldest_ts = 0` and appends without filtering, a second
run over the unchanged environment `exEnv` (two messages, ts 100 and 250)
appends 2 further message lines, not 0. -/
theorem C1_counterexample :
    (mainSingleExport exEnv ⟨none, false, 0⟩).mdMsgLines = 2 ∧
    (mainSingleExport exEnv (mainSingleExport exEnv ⟨none, false, 0⟩)).mdMsgLines = 4 := by
  constructor
  · decide
  · decide

/-- C1 (amended): the batch export flow `_export_single_channel` is
idempotent.  If a first run from state `st` exports the raw fetch result
`raw1`, and a second fetch `raw2` brings no new upstream messages (each of
its messages was already in `raw1` or lies at/below the original watermark),
then the second run changes nothing: it appends zero message lines and
leaves the tracker watermark unchanged.  `main`'s interactive flow
(`mainSingleExport`) does not have this property. -/
theorem C1_incremental_export_idempotent (st : ChannelState) (raw1 raw2 : List Msg)
    (hnonew : ∀ m ∈ raw2, m ∈ raw1 ∨ tsKey m ≤ st.trackerVal.getD 0) :
    _export_single_channel raw2 (_export_single_channel raw1 st)
      = _export_single_channel raw1 st := by
  by_cases hemp : raw1.filter (fun m => decide (st.trackerVal.getD 0 < tsKey m)) = []
  · have h1 : _export_single_channel raw1 st = st := export_eq_of_filter_nil hemp
    rw [h1]
    apply export_eq_of_filter_nil
    rw [List.filter_eq_nil_iff]
    intro m hm
    simp only [decide_eq_true_eq, not_lt]
    rcases hnonew m hm with hmem | hle
    · by_contra hlt
      push_neg at hlt
      have : m ∈ raw1.filter (fun m => decide (st.trackerVal.getD 0 < tsKey m)) :=
        List.mem_filter.mpr ⟨hmem, by simpa using hlt⟩
      rw [hemp] at this
      cases this
    · exact hle
  · have h1 := export_eq_of_filter_ne hemp
    rw [h1]
    apply export_eq_of_filter_nil
    rw [List.filter_eq_nil_iff]
    intro m hm
    simp only [Option.getD_some, decide_eq_true_eq, not_lt]
    have hW : st.trackerVal.getD 0 <
        pyMax ((raw1.filter (fun m => decide (st.trackerVal.getD 0 < tsKey m))).map tsKey) :=
      filter_gt_max hemp
    rcases hnonew m hm with hmem | hle
    · by_cases hlt : st.trackerVal.getD 0 < tsKey m
      · have : m ∈ raw1.filter (fun m => decide (st.trackerVal.getD 0 < tsKey m)) :=
          List.mem_filter.mpr ⟨hmem, by simpa using hlt⟩
        exact mem_le_filter_max this
      · push_neg at hlt
        exact le_trans hlt (le_of_lt hW)
    · exact le_trans hle (le_of_lt hW)

/-- C1, witness: a concrete instantiation of the amended idempotence theorem:
first run exports ts 100 and 250 from an empty state, and a repeat fetch of
the same two messages is a no-op. -/
theorem C1_incremental_export_idempotent_witness :
    _export_single_channel [exMsg100, exMsg250]
        (_export_single_channel [exMsg100, exMsg250] ⟨none, false, 0⟩)
      = _export_single_channel [exMsg100, exMsg250] ⟨none, false, 0⟩ :=
  C1_incremental_export_idempotent ⟨none, false, 0⟩ [exMsg100, exMsg250] [exMsg100, exMsg250]
    (fun _ hm => Or.inl hm)

/-! ### Claim C3 -/

/-- C3, counterexample: the claim asserts the tracker value never decreases
across runs.  `main` (lines 2971-2976) overwrites the tracker entry with
`max(float(m["ts"]))` over whatever the full-history fetch returned, without
comparing against the stored watermark: starting from a tracker value of
250, a run whose fetch sees only the ts-100 message regresses the tracker to
100. -/
theorem C3_counterexample :
    (mainSingleExport exEnvLate ⟨some 250, true, 3⟩).trackerVal = some 100 ∧
    (100 : ℚ) < 250 := by
  constructor
  · decide
  · decide

/-- C3 (amended): the batch flow `_export_single_channel` never regresses the
tracker and follows the update rule exactly: no update when the filtered new
message set is empty, otherwise the entry becomes the maximum ts of the
filtered messages (which exceeds the old watermark).  `main`'s flow
(`mainExportTail`) also never updates on an empty fetch and otherwise writes
the maximum ts of the fetched messages — but that maximum is not compared
with the stored watermark, so `main` can regress it (see the
counterexample). -/
theorem C3_watermark_update_rule (raw : List Msg) (st : ChannelState) :
    (st.trackerVal.getD 0 ≤ (_export_single_channel raw st).trackerVal.getD 0) ∧
    (raw.filter (fun m => decide (st.trackerVal.getD 0 < tsKey m)) = [] →
      _export_single_channel raw st = st) ∧
    (¬ raw.filter (fun m => decide (st.trackerVal.getD 0 < tsKey m)) = [] →
      (_export_single_channel raw st).trackerVal = some (pyMax
        ((raw.filter (fun m => decide (st.trackerVal.getD 0 < tsKey m))).map tsKey))) ∧
    (∀ msgs : List Msg, ∀ st2 : ChannelState,
      (msgs = [] → mainExportTail msgs st2 = st2) ∧
      (¬ msgs = [] → (mainExportTail msgs st2).trackerVal
        = some (pyMax (msgs.map tsKey)))) := by
  refine ⟨?_, fun h => export_eq_of_filter_nil h, fun h => ?_, fun msgs st2 => ⟨?_, ?_⟩⟩
  · by_cases hemp : raw.filter (fun m => decide (st.trackerVal.getD 0 < tsKey m)) = []
    · rw [export_eq_of_filter_nil hemp]
    · rw [export_eq_of_filter_ne hemp]
      exact le_of_lt (filter_gt_max hemp)
  · rw [export_eq_of_filter_ne h]
  · intro h; subst h; exact mainExportTail_nil
  · intro h; rw [mainExportTail_ne h]

/-- C3, witness: the update rule at a concrete input: from watermark 100, a
fetch of ts 100 and ts 250 exports only ts 250 and moves the tracker to 250;
an empty fetch leaves `main`'s state untouched. -/
theorem C3_watermark_update_rule_witness :
    (_export_single_channel [exMsg100, exMsg250] ⟨some 100, true, 1⟩).trackerVal
        = some 250 ∧
    mainExportTail [] (⟨some 7, false, 0⟩ : ChannelState) = ⟨some 7, false, 0⟩ := by
  have h := C3_watermark_update_rule [exMsg100, exMsg250] ⟨some 100, true, 1⟩
  constructor
  · rw [h.2.2.1 (by decide)]
    decide
  · exact (h.2.2.2 [] ⟨some 7, false, 0⟩).1 rfl

/-! ### Claim C2 -/

/-- C2: deduplication and ordering of fetched histories.  Every list returned
by `fetch_conversation_history` has pairwise-distinct `ts` values and is
sorted so `float(ts[i]) <= float(ts[i+1])` for every adjacent pair; and on
each path the result holds exactly one entry per distinct `ts` of the
harvested multiset (history pages plus thread replies on the direct path,
the intercepted buffer on the UI-scroll path), even when the same `ts`
occurs several times. -/
theorem C2_dedup_and_ordering :
    (∀ env : FetchEnv, ∀ oldest_ts : ℚ,
      ((fetch_conversation_history env oldest_ts).map Msg.ts).Nodup ∧
      (fetch_conversation_history env oldest_ts).Chain' (fun a b => tsKey a ≤ tsKey b)) ∧
    (∀ api_msgs : List Msg, ∀ replies : ℚ → Option (List Msg), ∀ t : ℚ,
      (directPathMessages api_msgs replies).countP (fun m => decide (m.ts = some t)) =
        if (api_msgs ++ threadedMsgs api_msgs replies).any (fun m => decide (m.ts = some t))
        then 1 else 0) ∧
    (∀ data : List Intercepted, ∀ oldest_ts t : ℚ,
      (uiPathMessages data oldest_ts).countP (fun m => decide (m.ts = some t)) =
        if (harvestIntercepted data oldest_ts).any (fun m => decide (m.ts = some t))
        then 1 else 0) := by
  refine ⟨fun env oldest_ts => ?_, directPath_countP, uiPath_countP⟩
  rcases fetch_cases env oldest_ts with h | ⟨api, _, h⟩ | h
  · rw [h]; exact ⟨List.nodup_nil, List.chain'_nil⟩
  · rw [h]; exact ⟨directPath_nodup api env.replies, directPath_chain api env.replies⟩
  · rw [h]; exact ⟨uiPath_nodup env.uiData oldest_ts, uiPath_chain env.uiData oldest_ts⟩

/-! ### Claim C4 -/

/-- C4: watermark exclusion on both fetch paths.  On the UI-scroll path the
harvest filter enforces it outright; on the direct path the exclusion is
delegated to the Web API, so it is stated under the API contract: history
pages honour `oldest`/`inclusive=false` (every returned message is strictly
newer than the watermark) and thread replies after the parent are no older
than the watermark whenever the thread root is.  Under those hypotheses
every returned message satisfies `float(ts) > oldest_ts`. -/
theorem C4_watermark_exclusion (env : FetchEnv) (oldest_ts : ℚ)
    (hpages : ∀ p ∈ env.pages, ∀ m ∈ p.messages, oldest_ts < tsKey m)
    (hreplies : ∀ t : ℚ, oldest_ts < t → ∀ l, env.replies t = some l →
      ∀ m ∈ l.drop 1, oldest_ts < tsKey m) :
    ∀ m ∈ fetch_conversation_history env oldest_ts, oldest_ts < tsKey m := by
  intro m hm
  rcases fetch_cases env oldest_ts with h | ⟨api, hsync, h⟩ | h
  · rw [h] at hm; cases hm
  · rw [h] at hm
    have hapi : ∀ x ∈ api, oldest_ts < tsKey x := by
      intro x hx
      rcases fetch_sync_mem hsync hx with ⟨p, hp, hxp⟩
      exact hpages p hp x hxp
    rcases List.mem_append.mp (directPath_subset hm) with hh | hh
    · exact hapi m hh
    · rcases threadedMsgs_mem hh with ⟨parent, hparent, t, hts, l, hrep, hmem⟩
      have hpt : oldest_ts < t := by
        have := hapi parent hparent
        rwa [tsKey, hts, Option.getD_some] at this
      exact hreplies t hpt l hrep m hmem
  · rw [h] at hm
    exact uiPath_gt hm

/-- C4, witness: the exclusion theorem applied to the concrete environment
`exEnv` (one OK page with messages at ts 250 and 100, no thread replies)
with watermark 1. -/
theorem C4_watermark_exclusion_witness :
    (fetch_conversation_history exEnv 1).all (fun m => decide ((1 : ℚ) < tsKey m)) = true := by
  have h := C4_watermark_exclusion exEnv 1 (by decide)
    (fun t ht l hl => nomatch hl)
  rw [List.all_eq_true]
  intro m hm
  simpa using h m hm

/-! ### Claim C10 -/

/-- C10: every message returned by `fetch_conversation_history`, on either
path, carries a truthy `ts` field (ts-less messages are dropped during
deduplication), so the markdown renderer's unguarded `msg["ts"]` access and
float conversion (`_markdown_line`, line 2301) is defined on every exported
message. -/
theorem C10_exported_ts_present (env : FetchEnv) (oldest_ts : ℚ)
    (users : List (List Char × List Char)) :
    ∀ m ∈ fetch_conversation_history env oldest_ts,
      m.ts.isSome ∧ (_markdown_line m users).isSome := by
  intro m hm
  have hsome : m.ts.isSome := by
    rcases fetch_cases env oldest_ts with h | ⟨api, _, h⟩ | h
    · rw [h] at hm; cases hm
    · rw [h] at hm; exact directPath_isSome hm
    · rw [h] at hm; exact uiPath_isSome hm
  refine ⟨hsome, ?_⟩
  rcases Option.isSome_iff_exists.mp hsome with ⟨q, hq⟩
  simp [_markdown_line, hq]

/-- C10, witness: the theorem applied to the concrete environment `exEnv`,
whose fetch returns the two messages at ts 100 and 250. -/
theorem C10_exported_ts_present_witness :
    (fetch_conversation_history exEnv 0).all
      (fun m => m.ts.isSome && (_markdown_line m []).isSome) = true := by
  rw [List.all_eq_true]
  intro m hm
  have h := C10_exported_ts_present exEnv 0 [] m hm
  simp [h.1, h.2]

/-! ### Claim C5 -/

/-- C5, counterexample: the claim asserts `last_updated` changes only on
calls that find a token, and in particular that a call carrying no token
material, with the token unchanged from prior calls, leaves `last_updated`
alone.  The code's final guard (line 225) is `if self.token:` — it fires off
the retained token as well: a GET request with no body, no cookie header and
no response data leaves the token unchanged (`xoxb-1`, captured earlier) yet
moves `last_updated` from 5 to the current time 99. -/
theorem C5_counterexample :
    (update_from_request exCreds exReqGet none 99).token = exCreds.token ∧
    exCreds.last_updated = 5 ∧
    (update_from_request exCreds exReqGet none 99).last_updated = 99 ∧
    (99 : ℚ) ≠ 5 := by
  refine ⟨by decide, by decide, by decide, by decide⟩

/-- C5 (amended): `update_from_request` touches `last_updated` exactly when
the token field is non-empty at the end of the call — whether the token was
found during this call or retained from an earlier one.  Only when the token
is empty after the call is `last_updated` left unchanged. -/
theorem C5_last_updated_rule (c : SlackCredentials) (req : SlackRequest)
    (rd : Option ResponseData) (now : ℚ) :
    (update_from_request c req rd now).last_updated =
      if (update_from_request c req rd now).token.isEmpty then c.last_updated else now := by
  simp only [update_from_request]
  split <;> simp_all

/-! ### Claim C6 -/

/-- C6: the credentials file is written only when a token is present.
`SlackCredentials.save` itself writes unconditionally (lines 152-161), but
its only call site is the guard `if self.credentials.token:` in
`SlackBrowser.save_credentials` (lines 1947-1951): with an empty token the
save operation leaves the on-disk record untouched (silent no-op), and with
a token present it overwrites the file with the in-memory record. -/
theorem C6_save_guarded (c : SlackCredentials) (disk : Option CredsRecord) :
    (c.token = [] → save_credentials c disk = disk) ∧
    (¬ c.token = [] → save_credentials c disk
      = some ⟨c.cookies, c.token, c.user_id, c.team_id, c.last_updated⟩) := by
  constructor
  · intro h
    simp [save_credentials, h]
  · intro h
    simp [save_credentials, SlackCredentials.save, List.isEmpty_iff, h]

/-- C6, witness: an empty-token record leaves the (absent) credentials file
untouched; `exCreds` (token `xoxb-1`) is written out verbatim. -/
theorem C6_save_guarded_witness :
    save_credentials (⟨[], [], [], [], 0⟩ : SlackCredentials) none = none ∧
    save_credentials exCreds none
      = some ⟨[], "xoxb-1".toList, [], [], 5⟩ := by
  constructor
  · exact (C6_save_guarded ⟨[], [], [], [], 0⟩ none).1 rfl
  · have h := (C6_save_guarded exCreds none).2 (by decide)
    rw [h]
    decide

/-! ### Claim C7 -/

/-- C7, counterexample: the claim asserts `load` never raises for any state
of the credentials file.  A file holding valid JSON that is not an object —
here the empty array — parses fine, but the subsequent `data.get("cookies")`
raises `AttributeError`, which the `except (JSONDecodeError, IOError)`
handler at line 175 does not catch: the exception propagates to the
caller. -/
theorem C7_counterexample :
    SlackCredentials.load (.parsed (.arr [])) = .error () := rfl

/-- C7 (amended): `load` returns the all-empty record for a missing,
unreadable, or non-JSON-parsable file, and succeeds on every file whose JSON
value is an object (each field falling back to its empty default); but a
file holding a valid JSON non-object value (array, string, number, boolean
or null) raises `AttributeError` out of `load`. -/
theorem C7_load_behaviour :
    SlackCredentials.load .absent = .ok emptyCreds ∧
    SlackCredentials.load .unreadable = .ok emptyCreds ∧
    SlackCredentials.load .notJson = .ok emptyCreds ∧
    (∀ fields : List (String × PyJson),
      SlackCredentials.load (.parsed (.obj fields)) = .ok
        ⟨(fields.lookup "cookies").getD (.obj []),
         (fields.lookup "token").getD (.str ""),
         (fields.lookup "user_id").getD (.str ""),
         (fields.lookup "team_id").getD (.str ""),
         (fields.lookup "last_updated").getD (.num 0)⟩) ∧
    (∀ elems, SlackCredentials.load (.parsed (.arr elems)) = .error ()) ∧
    (∀ s, SlackCredentials.load (.parsed (.str s)) = .error ()) ∧
    (∀ q, SlackCredentials.load (.parsed (.num q)) = .error ()) ∧
    (∀ b, SlackCredentials.load (.parsed (.bool b)) = .error ()) ∧
    SlackCredentials.load (.parsed .null) = .error () := by
  refine ⟨rfl, rfl, rfl, fun fields => rfl, fun elems => rfl, fun s => rfl,
    fun q => rfl, fun b => rfl, rfl⟩

/-! ### Claim C8 -/

/-- C8, counterexample: the claim asserts all three direct-API pagination
loops catch HTTP failures per call and return what was accumulated.  In
`_fetch_history_via_api_sync` the `resp.raise_for_status()` at line 1336 is
not caught inside the loop: with a first OK page holding the ts-100 message
and a second call failing at the HTTP level, the loop raises and the
accumulated message is lost — in contrast to a non-OK payload on the second
page, which does abort gracefully with the accumulated message. -/
theorem C8_counterexample :
    _fetch_history_via_api_sync true
        [⟨false, true, [exMsg100], true⟩, ⟨true, true, [], false⟩] = .error () ∧
    _fetch_history_via_api_sync true
        [⟨false, true, [exMsg100], true⟩, ⟨false, false, [], false⟩] = .ok [exMsg100] := by
  constructor
  · rfl
  · rfl

/-- C8 (amended): the `conversations.list` and `users.list` loops go through
`_api_post_sync`, which swallows HTTP failures into an empty payload, so a
failed call (or a non-OK payload) aborts the loop gracefully with the
entries accumulated so far.  The `conversations.history` loop aborts
gracefully only on non-OK payloads; an HTTP failure raises out of
`_fetch_history_via_api_sync` to its caller (where
`fetch_conversation_history` catches it and falls back to UI scroll,
discarding the accumulated messages).  Error-free, cursor-terminated
response sequences always yield a result. -/
theorem C8_pagination_error_handling :
    (∀ (acc : List (List Char × List Char)) (p : ListPage) (ps : List ListPage),
      p.httpFail = true ∨ p.ok = false → get_channel_list_loop acc (p :: ps) = acc) ∧
    (∀ (acc : List (List Char × List Char)) (p : UsersPage) (ps : List UsersPage),
      p.httpFail = true ∨ p.ok = false → get_user_list_loop acc (p :: ps) = acc) ∧
    (∀ (acc : List Msg) (p : ApiPage) (ps : List ApiPage),
      p.httpError = false → p.ok = false → historyLoop (p :: ps) acc = .ok acc) ∧
    (∀ (acc : List Msg) (p : ApiPage) (ps : List ApiPage),
      p.httpError = true → historyLoop (p :: ps) acc = .error ()) ∧
    (∀ (pages : List ApiPage) (plast : ApiPage),
      (∀ p ∈ pages, p.httpError = false) → pages.getLast? = some plast →
      plast.next_cursor = false →
      ∃ l, _fetch_history_via_api_sync true pages = .ok l) := by
  refine ⟨?_, ?_, ?_, ?_, ?_⟩
  · intro acc p ps h
    have hcond : p.httpFail = true ∨ ¬ p.ok = true := by
      rcases h with h | h
      · exact Or.inl h
      · exact Or.inr (by simp [h])
    simp only [get_channel_list_loop]
    rw [if_pos hcond]
  · intro acc p ps h
    have hcond : p.httpFail = true ∨ ¬ p.ok = true := by
      rcases h with h | h
      · exact Or.inl h
      · exact Or.inr (by simp [h])
    simp only [get_user_list_loop]
    rw [if_pos hcond]
  · intro acc p ps herr hok
    simp [historyLoop, herr, hok]
  · intro acc p ps herr
    simp [historyLoop, herr]
  · intro pages plast herr hlast hcur
    obtain ⟨l, hl⟩ := @historyLoop_ok_exists pages [] plast herr hlast hcur
    exact ⟨sortByTs l, by simp [_fetch_history_via_api_sync, hl]⟩

/-- C8, witness: the amended theorem applied at concrete pages: an HTTP
failure aborts the channel and user loops with the accumulated (empty) maps,
a non-OK payload ends the history loop gracefully, an HTTP error raises, and
a clean one-page trace produces a result. -/
theorem C8_pagination_error_handling_witness :
    get_channel_list_loop [] [⟨true, true, [], false⟩] = [] ∧
    get_user_list_loop [] [⟨true, true, [], false⟩] = [] ∧
    historyLoop [⟨false, false, [], false⟩] [] = .ok [] ∧
    historyLoop [⟨true, true, [], false⟩] [] = .error () ∧
    ∃ l, _fetch_history_via_api_sync true [⟨false, true, [exMsg100], false⟩] = .ok l := by
  refine ⟨?_, ?_, ?_, ?_, ?_⟩
  · exact C8_pagination_error_handling.1 [] ⟨true, true, [], false⟩ [] (Or.inl rfl)
  · exact C8_pagination_error_handling.2.1 [] ⟨true, true, [], false⟩ [] (Or.inl rfl)
  · exact C8_pagination_error_handling.2.2.1 [] ⟨false, false, [], false⟩ [] rfl rfl
  · exact C8_pagination_error_handling.2.2.2.1 [] ⟨true, true, [], false⟩ [] rfl
  · exact C8_pagination_error_handling.2.2.2.2 [⟨false, true, [exMsg100], false⟩]
      ⟨false, true, [exMsg100], false⟩ (by decide) rfl rfl

/-! ### Helper lemmas: channel-map placeholder suppression -/

theorem isPrefixOf_append_self {α : Type} [BEq α] [LawfulBEq α] (l x : List α) :
    l.isPrefixOf (l ++ x) = true := by
  induction l with
  | nil => simp [List.isPrefixOf]
  | cons a rest ih => simp [List.isPrefixOf, ih]

theorem channelMapStep_mem {acc : List (List Char × List Char) × Bool}
    {e : List Char × List Char} {p : List Char × List Char}
    (hp : p ∈ (channelMapStep acc e).1) :
    p ∈ acc.1 ∨
    (¬ ("channel_".toList).isPrefixOf (lowerL p.2) = true ∧
     ¬ ("group_".toList).isPrefixOf (lowerL p.2) = true ∧
     lowerL p.2 ≠ lowerL p.1) := by
  by_cases h1 : e.1.isEmpty = true ∨ e.2.isEmpty = true ∨ ¬ (['#'].isPrefixOf e.2) = true
  · rw [channelMapStep, if_pos (by tauto)] at hp
    exact Or.inl hp
  · rw [channelMapStep, if_neg (by tauto)] at hp
    set name_plain := e.2.dropWhile (fun c => c = '#') with hname
    by_cases h2 : ("channel_".toList).isPrefixOf (lowerL name_plain) = true
        ∨ ("group_".toList).isPrefixOf (lowerL name_plain) = true
        ∨ lowerL name_plain = lowerL e.1
    · rw [if_pos (by tauto)] at hp
      exact Or.inl hp
    · rw [if_neg (by tauto)] at hp
      push_neg at h2
      have hgood : ¬ ("channel_".toList).isPrefixOf (lowerL name_plain) = true ∧
          ¬ ("group_".toList).isPrefixOf (lowerL name_plain) = true ∧
          lowerL name_plain ≠ lowerL e.1 := ⟨h2.1, h2.2.1, h2.2.2⟩
      have hset : ∀ q ∈ pyDictSet e.1 name_plain acc.1,
          q ∈ acc.1 ∨
          (¬ ("channel_".toList).isPrefixOf (lowerL q.2) = true ∧
           ¬ ("group_".toList).isPrefixOf (lowerL q.2) = true ∧
           lowerL q.2 ≠ lowerL q.1) := by
        intro q hq
        rcases pyDictSet_mem hq with rfl | hq'
        · exact Or.inr hgood
        · exact Or.inl hq'
      cases hlk : acc.1.lookup e.1 with
      | some old =>
        rw [hlk] at hp
        have hp' : p ∈ (if old = name_plain then acc
            else (pyDictSet e.1 name_plain acc.1, true)).1 := hp
        by_cases hold : old = name_plain
        · rw [if_pos hold] at hp'
          exact Or.inl hp'
        · rw [if_neg hold] at hp'
          exact hset p hp'
      | none =>
        rw [hlk] at hp
        exact hset p hp

theorem channelMapFold_mem {input : List (List Char × List Char)}
    {acc : List (List Char × List Char) × Bool} {p : List Char × List Char}
    (hp : p ∈ (input.foldl channelMapStep acc).1) :
    p ∈ acc.1 ∨
    (¬ ("channel_".toList).isPrefixOf (lowerL p.2) = true ∧
     ¬ ("group_".toList).isPrefixOf (lowerL p.2) = true ∧
     lowerL p.2 ≠ lowerL p.1) := by
  induction input generalizing acc with
  | nil => exact Or.inl hp
  | cons e rest ih =>
    rw [List.foldl_cons] at hp
    rcases ih hp with h | h
    · exact channelMapStep_mem h
    · exact Or.inr h

/-! ### Claim C9 -/

/-- C9: placeholder suppression.  Whatever channel dictionary is passed in,
every entry of the file written by `_save_channel_map` either was already in
the file, is the `_updated` stamp, or is a genuine entry: its name differs
from its id and from the `channel_<id>` and `group_<id>` placeholder forms
(the code suppresses the even larger class of names that merely start with
`channel_`/`group_` or equal the id case-insensitively). -/
theorem C9_placeholder_suppression
    (file channel_dict : List (List Char × List Char)) (now : List Char)
    (cid name : List Char)
    (hmem : (cid, name) ∈ _save_channel_map file channel_dict now) :
    (cid, name) ∈ file ∨ cid = "_updated".toList ∨
    (name ≠ cid ∧ name ≠ "channel_".toList ++ cid ∧ name ≠ "group_".toList ++ cid) := by
  rw [_save_channel_map] at hmem
  by_cases hupd : (channel_dict.foldl channelMapStep (_load_channel_map file, false)).2 = true
  · rw [if_pos hupd] at hmem
    rcases pyDictSet_mem hmem with heq | hmem'
    · refine Or.inr (Or.inl ?_)
      exact congrArg Prod.fst heq
    · rcases channelMapFold_mem hmem' with h | h
      · exact Or.inl (List.mem_of_mem_filter h)
      · refine Or.inr (Or.inr ⟨?_, ?_, ?_⟩)
        · intro heq
          exact h.2.2 (by rw [heq])
        · intro heq
          apply h.1
          have : lowerL name = "channel_".toList ++ lowerL cid := by
            rw [heq, lowerL, List.map_append]
            have : ("channel_".toList).map Char.toLower = "channel_".toList := by decide
            rw [this]
            rfl
          rw [this]
          exact isPrefixOf_append_self _ _
        · intro heq
          apply h.2.1
          have : lowerL name = "group_".toList ++ lowerL cid := by
            rw [heq, lowerL, List.map_append]
            have : ("group_".toList).map Char.toLower = "group_".toList := by decide
            rw [this]
            rfl
          rw [this]
          exact isPrefixOf_append_self _ _
  · rw [if_neg hupd] at hmem
    exact Or.inl hmem

/-- C9, witness: the suppression theorem applied to the concrete save of
`C1 ↦ #growth` into an empty file: the resulting entry `(C1, growth)` is a
genuine one. -/
theorem C9_placeholder_suppression_witness :
    ("growth".toList ≠ "C1".toList ∧
     "growth".toList ≠ "channel_".toList ++ "C1".toList ∧
     "growth".toList ≠ "group_".toList ++ "C1".toList) := by
  have h := C9_placeholder_suppression [] [("C1".toList, "#growth".toList)] []
    ("C1".toList) ("growth".toList) (by decide)
  rcases h with h | h | h
  · cases h
  · exact absurd h (by decide)
  · exact h
